import Mathlib

/-!
Shallow embedding of the `gargs` CLI argument parser (`gargs.go`) and the
`godash` list helpers (`godash.go`), together with theorems settling the
specification's claims about them.

Conventions of the embedding:
* Go strings are Lean `String`s; the standard-library string helpers used by
  the source (`strings.Trim`, `strings.Replace` with count 1, `strings.Split`,
  `strings.HasPrefix`) are modelled below over the character list `String.data`.
* `strconv.ParseFloat(s, 64)` is modelled with exact rational semantics: the
  decimal literal grammar (optional sign, digits with optional fraction part,
  optional `e`/`E` exponent) evaluated in `ℚ`.  The model omits hexadecimal
  floats, `Inf`/`NaN` spellings, digit-group underscores and the float64
  range/rounding limits; no claim under test depends on those.
* Go `interface{}` values produced by the parser form the inductive type `Arg`;
  the Go map `map[string]Arg` is modelled as an insertion-ordered association
  list with update-in-place semantics (`mapSet`).
-/

/-! ## Go string primitives -/

/-- Leading part of `strings.Trim(v, " ")`: drop the leading run of spaces. -/
def dropLeading (l : List Char) : List Char :=
  l.dropWhile (fun c => c == ' ')

/-- Trailing part of `strings.Trim(v, " ")`: drop the trailing run of spaces. -/
def dropTrailing : List Char → List Char
  | [] => []
  | c :: t =>
    match dropTrailing t with
    | [] => if c == ' ' then [] else [c]
    | r => c :: r

/-- Models `strings.Trim(v, " ")`: removes leading and trailing space
characters (only U+0020, exactly the cutset the source passes). -/
def trimSpaces (s : String) : String :=
  String.mk (dropTrailing (dropLeading s.data))

/-- Models `strings.HasPrefix(s, p)` (also the prefix tests done by
`strings.Replace` at the match position). -/
def strStartsWith (s p : String) : Bool :=
  p.data.isPrefixOf s.data

/-- Core of `strings.Replace(s, old, new, 1)`: replace the first occurrence of
`pat` (left-most match) by `rep`; if `pat` does not occur, the list is
unchanged.  All call sites in the source pass a non-empty `pat`. -/
def replaceFirstL (pat rep : List Char) : List Char → List Char
  | [] => []
  | c :: t =>
    if pat.isPrefixOf (c :: t) then rep ++ (c :: t).drop pat.length
    else c :: replaceFirstL pat rep t

/-- Models `strings.Replace(s, pat, rep, 1)`. -/
def replaceFirst (s pat rep : String) : String :=
  String.mk (replaceFirstL pat.data rep.data s.data)

/-- Helper for `strings.Split(s, sep)` with a one-character separator:
accumulates the current field (reversed) while scanning. -/
def splitOnCharAux (sep : Char) : List Char → List Char → List (List Char)
  | [], acc => [acc.reverse]
  | c :: t, acc =>
    if c == sep then acc.reverse :: splitOnCharAux sep t []
    else splitOnCharAux sep t (c :: acc)

/-- `strings.Split` on a one-character separator, at the character-list level:
fields between separator occurrences, empty fields preserved. -/
def splitOnCharL (sep : Char) (l : List Char) : List (List Char) :=
  splitOnCharAux sep l []

/-- Models `strings.Split(s, " ")`. -/
def goSplitSpace (s : String) : List String :=
  (splitOnCharL ' ' s.data).map String.mk

/-- First field of a character list up to the first character satisfying `p`,
plus the remainder after that character (or `none` when no character
satisfies `p`).  Used to model splitting a numeric literal at `.` or `e`. -/
def splitOnFirstP (p : Char → Bool) : List Char → List Char × Option (List Char)
  | [] => ([], none)
  | c :: t =>
    if p c then ([], some t)
    else
      let r := splitOnFirstP p t
      (c :: r.1, r.2)

/-! ## strconv models -/

/-- Decimal digit test, `'0'` through `'9'`. -/
def isDigitChar (c : Char) : Bool :=
  48 ≤ c.toNat && c.toNat ≤ 57

/-- All characters are decimal digits. -/
def allDigits (l : List Char) : Bool :=
  l.all isDigitChar

/-- Value of a big-endian decimal digit string. -/
def digitsToNat (l : List Char) : ℕ :=
  l.foldl (fun a c => 10 * a + (c.toNat - 48)) 0

/-- Exponent marker of the decimal float grammar. -/
def isExpChar (c : Char) : Bool :=
  c == 'e' || c == 'E'

/-- Mantissa of `strconv.ParseFloat`'s decimal grammar: digits with an optional
fraction part, at least one digit overall (`"1"`, `"1.2"`, `"1."`, `".5"`). -/
def parseMantissa (l : List Char) : Option ℚ :=
  match splitOnFirstP (fun c => c == '.') l with
  | (intp, none) =>
    if !intp.isEmpty && allDigits intp then some ((digitsToNat intp : ℚ)) else none
  | (intp, some frac) =>
    if !(intp.isEmpty && frac.isEmpty) && allDigits intp && allDigits frac then
      some ((digitsToNat intp : ℚ) + (digitsToNat frac : ℚ) / 10 ^ frac.length)
    else none

/-- Exponent part of `strconv.ParseFloat`'s decimal grammar: an optional sign
followed by at least one digit. -/
def parseExpPart (l : List Char) : Option ℤ :=
  match l with
  | [] => none
  | c :: t =>
    if c == '+' then
      if !t.isEmpty && allDigits t then some ((digitsToNat t : ℤ)) else none
    else if c == '-' then
      if !t.isEmpty && allDigits t then some (-(digitsToNat t : ℤ)) else none
    else
      if allDigits (c :: t) then some ((digitsToNat (c :: t) : ℤ)) else none

/-- Unsigned decimal float literal: mantissa with an optional `e`/`E`
exponent. -/
def parseUnsignedFloat (l : List Char) : Option ℚ :=
  match splitOnFirstP isExpChar l with
  | (mant, none) => parseMantissa mant
  | (mant, some ex) =>
    match parseMantissa mant, parseExpPart ex with
    | some m, some e => some (m * (10 : ℚ) ^ e)
    | _, _ => none

/-- Models `strconv.ParseFloat(s, 64)` (decimal grammar, exact rational
semantics; see the header for the documented abstractions). -/
def parseGoFloat (s : String) : Option ℚ :=
  match s.data with
  | [] => none
  | c :: t =>
    if c == '+' then parseUnsignedFloat t
    else if c == '-' then (parseUnsignedFloat t).map (fun q => -q)
    else parseUnsignedFloat (c :: t)

/-- Value of one hexadecimal digit (`0-9`, `a-f`, `A-F`). -/
def hexDigitVal (c : Char) : Option ℕ :=
  if 48 ≤ c.toNat && c.toNat ≤ 57 then some (c.toNat - 48)
  else if 97 ≤ c.toNat && c.toNat ≤ 102 then some (c.toNat - 87)
  else if 65 ≤ c.toNat && c.toNat ≤ 70 then some (c.toNat - 55)
  else none

/-- Accumulating base-16 scan; fails on the first non-hex character. -/
def parseHexAux : List Char → ℕ → Option ℕ
  | [], acc => some acc
  | c :: t, acc =>
    match hexDigitVal c with
    | some d => parseHexAux t (16 * acc + d)
    | none => none

/-- Models `strconv.ParseUint(s, 16, 32)`: a non-empty string of hex digits
(no sign, no prefix) whose value fits in 32 bits. -/
def parseHexUint32 (s : String) : Option ℕ :=
  if s.data.isEmpty then none
  else
    match parseHexAux s.data 0 with
    | some n => if n < 2 ^ 32 then some n else none
    | none => none

/-- Models `strconv.ParseBool`: the exact literal set accepted by Go. -/
def parseBool (s : String) : Option Bool :=
  match s with
  | "1" | "t" | "T" | "TRUE" | "true" | "True" => some true
  | "0" | "f" | "F" | "FALSE" | "false" | "False" => some false
  | _ => none

/-! ## gargs: the value coercer -/

/-- The Go `Arg` type (`interface{}`): every value the parser stores.  The
`float` payload carries the exact rational denoted by the literal. -/
inductive Arg where
  | float (q : ℚ)
  | uint (n : ℕ)
  | bool (b : Bool)
  | str (s : String)
  | list (l : List Arg)

mutual

/-- Decidable equality on `Arg` (spelled out because the payload of `list`
nests `Arg` inside `List`). -/
def argDecEq : (a b : Arg) → Decidable (a = b)
  | .float a, .float b =>
    match decEq a b with
    | isTrue h => isTrue (by rw [h])
    | isFalse h => isFalse (fun hh => h (Arg.float.inj hh))
  | .uint a, .uint b =>
    match decEq a b with
    | isTrue h => isTrue (by rw [h])
    | isFalse h => isFalse (fun hh => h (Arg.uint.inj hh))
  | .bool a, .bool b =>
    match decEq a b with
    | isTrue h => isTrue (by rw [h])
    | isFalse h => isFalse (fun hh => h (Arg.bool.inj hh))
  | .str a, .str b =>
    match decEq a b with
    | isTrue h => isTrue (by rw [h])
    | isFalse h => isFalse (fun hh => h (Arg.str.inj hh))
  | .list a, .list b =>
    match argListDecEq a b with
    | isTrue h => isTrue (by rw [h])
    | isFalse h => isFalse (fun hh => h (Arg.list.inj hh))
  | .float _, .uint _ => isFalse (fun h => Arg.noConfusion h)
  | .float _, .bool _ => isFalse (fun h => Arg.noConfusion h)
  | .float _, .str _ => isFalse (fun h => Arg.noConfusion h)
  | .float _, .list _ => isFalse (fun h => Arg.noConfusion h)
  | .uint _, .float _ => isFalse (fun h => Arg.noConfusion h)
  | .uint _, .bool _ => isFalse (fun h => Arg.noConfusion h)
  | .uint _, .str _ => isFalse (fun h => Arg.noConfusion h)
  | .uint _, .list _ => isFalse (fun h => Arg.noConfusion h)
  | .bool _, .float _ => isFalse (fun h => Arg.noConfusion h)
  | .bool _, .uint _ => isFalse (fun h => Arg.noConfusion h)
  | .bool _, .str _ => isFalse (fun h => Arg.noConfusion h)
  | .bool _, .list _ => isFalse (fun h => Arg.noConfusion h)
  | .str _, .float _ => isFalse (fun h => Arg.noConfusion h)
  | .str _, .uint _ => isFalse (fun h => Arg.noConfusion h)
  | .str _, .bool _ => isFalse (fun h => Arg.noConfusion h)
  | .str _, .list _ => isFalse (fun h => Arg.noConfusion h)
  | .list _, .float _ => isFalse (fun h => Arg.noConfusion h)
  | .list _, .uint _ => isFalse (fun h => Arg.noConfusion h)
  | .list _, .bool _ => isFalse (fun h => Arg.noConfusion h)
  | .list _, .str _ => isFalse (fun h => Arg.noConfusion h)

/-- Decidable equality on `List Arg`, mutually with `argDecEq`. -/
def argListDecEq : (a b : List Arg) → Decidable (a = b)
  | [], [] => isTrue rfl
  | [], _ :: _ => isFalse (fun h => List.noConfusion h)
  | _ :: _, [] => isFalse (fun h => List.noConfusion h)
  | x :: xs, y :: ys =>
    match argDecEq x y, argListDecEq xs ys with
    | isTrue h1, isTrue h2 => isTrue (by rw [h1, h2])
    | isFalse h1, _ => isFalse (fun hh => h1 (List.cons.inj hh).1)
    | _, isFalse h2 => isFalse (fun hh => h2 (List.cons.inj hh).2)

end

instance : DecidableEq Arg := argDecEq

/-- Models `coerceArgument` from `gargs.go`: try float, then (for strings with
prefix `0x`) 32-bit hex, then boolean, else fall through to the original
string. -/
def coerceArgument (value : String) : Arg :=
  match parseGoFloat value with
  | some f => Arg.float f
  | none =>
    match (if strStartsWith value "0x" then parseHexUint32 (replaceFirst value "0x" "") else none) with
    | some i => Arg.uint i
    | none =>
      match parseBool value with
      | some b => Arg.bool b
      | none => Arg.str value

/-! ## gargs: the parser pipeline -/

/-- The Go `map[string]Arg`, modelled as an insertion-ordered association list
without duplicate keys (`mapSet` updates in place). -/
abbrev Smap := List (String × Arg)

/-- Models the Go map read `parsed[key]` (with its `ok` flag as `Option`). -/
def mapGet : Smap → String → Option Arg
  | [], _ => none
  | (k', v) :: t, k => if k' = k then some v else mapGet t k

/-- Models the Go map write `parsed[key] = v`. -/
def mapSet : Smap → String → Arg → Smap
  | [], k, v => [(k, v)]
  | (k', v') :: t, k, v => if k' = k then (k, v) :: t else (k', v') :: mapSet t k v

/-- State threaded through the first loop of `Parse` (the tokenizer/sanitizer):
the `escaped` flag, the escaped-value list, the normalized token list, and the
result map (which the loop already fills for short options). -/
structure SanState where
  escaped : Bool
  escapedArgs : List Arg
  sanitized : List String
  parsed : Smap

/-- The `--flag[=value]` case of the sanitizer:
`strings.Split(strings.Replace(value, "=", " ", 1), " ")`. -/
def expandFlagToken (value : String) : List String :=
  goSplitSpace (replaceFirst value "=" " ")

/-- The short-option case of the sanitizer: each character of the value minus
its first `-` becomes a key mapped to boolean `true`
(`strings.Split(strings.Replace(value, "-", "", 1), "")` plus the loop). -/
def setOptions (parsed : Smap) (value : String) : Smap :=
  ((replaceFirst value "-" "").data.map (fun c => String.mk [c])).foldl
    (fun m k => mapSet m k (Arg.bool true)) parsed

/-- One iteration of the first loop of `Parse` over a raw argument `v`. -/
def sanitizeStep (st : SanState) (v : String) : SanState :=
  let value := trimSpaces v
  if value = "--" then { st with escaped := true }
  else if st.escaped then { st with escapedArgs := st.escapedArgs ++ [coerceArgument value] }
  else if strStartsWith value "--" then { st with sanitized := st.sanitized ++ expandFlagToken value }
  else if strStartsWith value "-" then { st with parsed := setOptions st.parsed value }
  else { st with sanitized := st.sanitized ++ [v] }

/-- The first loop of `Parse`, starting from `parsed = {"_": []}` as in the
source. -/
def sanitize (args : List String) : SanState :=
  args.foldl sanitizeStep ⟨false, [], [], [("_", Arg.list [])]⟩

/-- The `--no-[flag]` rule of the second loop: when the key starts with `no-`
and the resolved value string is `"true"`, strip the first `no-` and use
`"false"`. -/
def applyNoRule (key next : String) : String × String :=
  if strStartsWith key "no-" && (next == "true") then (replaceFirst key "no-" "", "false")
  else (key, next)

/-- The repeated-flag merge of the second loop: overwrite when the key is
absent or holds a plain boolean (`!ok || val == true || val == false`),
otherwise wrap the old and new value in a two-element list. -/
def mergeFlag (parsed : Smap) (key next : String) : Smap :=
  match mapGet parsed key with
  | none => mapSet parsed key (coerceArgument next)
  | some v =>
    match v with
    | Arg.bool _ => mapSet parsed key (coerceArgument next)
    | _ => mapSet parsed key (Arg.list [v, coerceArgument next])

/-- One pass of the second loop of `Parse` (the assembler): walks the
sanitized tokens, collecting non-flag tokens into `plain` and associating each
`--` flag with the following token (or `"true"` at the end of the list or
before another flag, in which case that token is not consumed — the source's
`i--` rewind).  The `fuel` argument models the loop's index bookkeeping; every
iteration consumes at least one token, so starting with `fuel = length` the
fuel is never exhausted. -/
def assembleAux : ℕ → List String → List Arg → Smap → List Arg × Smap
  | _, [], plain, parsed => (plain, parsed)
  | 0, _ :: _, plain, parsed => (plain, parsed)
  | fuel + 1, cur :: rest, plain, parsed =>
    if strStartsWith cur "--" then
      let key := replaceFirst cur "--" ""
      match rest with
      | [] =>
        let kn := applyNoRule key "true"
        (plain, mergeFlag parsed kn.1 kn.2)
      | next :: rest2 =>
        if strStartsWith next "--" then
          let kn := applyNoRule key "true"
          assembleAux fuel (next :: rest2) plain (mergeFlag parsed kn.1 kn.2)
        else
          let kn := applyNoRule key next
          assembleAux fuel rest2 plain (mergeFlag parsed kn.1 kn.2)
    else assembleAux fuel rest (plain ++ [coerceArgument cur]) parsed

/-- The second loop of `Parse`. -/
def assemble (tokens : List String) (plain : List Arg) (parsed : Smap) : List Arg × Smap :=
  assembleAux tokens.length tokens plain parsed

/-- Models `Parse` from `gargs.go` on a caller-supplied argument list.  The
`nil → os.Args[1:]` default and the `recover`-based fault boundary are
process-level mechanisms outside the embedding; the embedded parse is total
and its error result is always nil, so only the map is returned. -/
def Parse (args : List String) : Smap :=
  let st := sanitize args
  let pr := assemble st.sanitized [] st.parsed
  mapSet pr.2 "_" (Arg.list (pr.1 ++ st.escapedArgs))

/-- The `plain` accumulator of `Parse`: the coerced regular positionals in
arrival order. -/
def parsePlain (args : List String) : List Arg :=
  (assemble (sanitize args).sanitized [] (sanitize args).parsed).1

/-- What escape mode does to the remaining raw arguments: every token, taken
trimmed, except those that trim to exactly `--` (which re-trigger the marker
branch and are skipped), coerced in order.  Used to state the escape-mode
behavior of the sanitizer. -/
def escapedOf (args : List String) : List Arg :=
  ((args.map trimSpaces).filter (fun t => t != "--")).map coerceArgument

/-! ## godash -/

/-- Models `First` from `godash.go`: the unguarded access `array[0]`.  The
source declares no return type (a compile slip); the evident intent is to
return the first element, and the out-of-range panic on an empty slice is
modelled as `Except.error`. -/
def First {α : Type} (array : List α) : Except String α :=
  match array.get? 0 with
  | some a => Except.ok a
  | none => Except.error "index out of range"

/-- Models `Last` from `godash.go`: `nil` on an empty slice (modelled as
`none`), otherwise the element `array[len-1]`. -/
def Last {α : Type} (array : List α) : Option α :=
  let length := array.length
  if length = 0 then none
  else array.get? (length - 1)

/-! ## Go value rendering (`fmt` `%v`), for the idempotence claim -/

/-- The decimal digit character for `d < 10`. -/
def digitChar10 (d : ℕ) : Char :=
  match d with
  | 0 => '0' | 1 => '1' | 2 => '2' | 3 => '3' | 4 => '4'
  | 5 => '5' | 6 => '6' | 7 => '7' | 8 => '8' | _ => '9'

/-- Fuel-bounded base-10 digit extraction, big-endian; `fuel = n` always
suffices since a number has at most as many digits as its value. -/
def natDigitsAux : ℕ → ℕ → List Char
  | 0, _ => []
  | fuel + 1, n =>
    if n = 0 then [] else natDigitsAux fuel (n / 10) ++ [digitChar10 (n % 10)]

/-- Big-endian decimal digit characters of a natural number. -/
def natDigits (n : ℕ) : List Char :=
  if n = 0 then ['0'] else natDigitsAux n n

/-- Decimal rendering of a natural number (Go's `%v` for an unsigned
integer). -/
def formatNat (n : ℕ) : String :=
  String.mk (natDigits n)

/-- Go's `%v` rendering of a float64, at the value level.  Go prints the
shortest decimal string that `ParseFloat` maps back to the same value; the
model keeps that defining property, rendering the exact value in the explicit
scientific form `M e-K` (with `K = q.den`, which works for every rational a
decimal literal can denote). -/
def formatGoFloat (q : ℚ) : String :=
  String.mk ((if q.num < 0 then ['-'] else []) ++
    natDigits (q.num.natAbs * (10 ^ q.den / q.den)) ++ 'e' :: '-' :: natDigits q.den)

mutual

/-- Go's `%v` rendering of an `Arg` value: floats, unsigned integers,
booleans, strings, and bracketed lists. -/
def goRepr : Arg → String
  | .float q => formatGoFloat q
  | .uint n => formatNat n
  | .bool b => if b then "true" else "false"
  | .str s => s
  | .list l => "[" ++ goReprList l ++ "]"

/-- Space-separated rendering of the elements of a Go slice. -/
def goReprList : List Arg → String
  | [] => ""
  | [a] => goRepr a
  | a :: rest => goRepr a ++ " " ++ goReprList rest

end

/-! ## Map lemmas -/

theorem mapGet_mapSet_self (m : Smap) (k : String) (v : Arg) :
    mapGet (mapSet m k v) k = some v := by
  induction m with
  | nil => simp [mapSet, mapGet]
  | cons p t ih =>
    obtain ⟨k', v'⟩ := p
    by_cases hk : k' = k <;> simp [mapSet, mapGet, hk, ih]

/-! ## C7 -/

/-- C7: the result map always holds `_` mapped to a list, namely the coerced
regular positionals in arrival order (the `plain` accumulator) followed by the
escaped values; the empty input yields exactly the one-entry map
`{_ : []}`. -/
theorem parse_underscore_invariant :
    (∀ args : List String,
      mapGet (Parse args) "_" =
        some (Arg.list (parsePlain args ++ (sanitize args).escapedArgs))) ∧
    Parse [] = [("_", Arg.list [])] :=
  ⟨fun _ => mapGet_mapSet_self .., by decide⟩

/-! ## C3 -/

/-- C3: parsing `["a","b","--x","1","-yz","--no-flag"]` collects the
positionals `a`, `b` under `_`, associates the flag `x` with the float `1`,
expands the bundle `-yz` to the booleans `y` and `z`, and turns `--no-flag`
into `flag = false`. -/
theorem parse_example_mixed :
    mapGet (Parse ["a", "b", "--x", "1", "-yz", "--no-flag"]) "_" =
        some (Arg.list [Arg.str "a", Arg.str "b"]) ∧
    mapGet (Parse ["a", "b", "--x", "1", "-yz", "--no-flag"]) "x" = some (Arg.float 1) ∧
    mapGet (Parse ["a", "b", "--x", "1", "-yz", "--no-flag"]) "y" = some (Arg.bool true) ∧
    mapGet (Parse ["a", "b", "--x", "1", "-yz", "--no-flag"]) "z" = some (Arg.bool true) ∧
    mapGet (Parse ["a", "b", "--x", "1", "-yz", "--no-flag"]) "flag" = some (Arg.bool false) := by
  decide

/-! ## C10 -/

/-- C10: `First` is an unguarded `array[0]`: it yields the head of every
non-empty list but faults (index out of range) on the empty list, so its safe
use needs non-emptiness — unlike `Last`, which returns nil (`none`) on the
empty list and an element on every non-empty list. -/
theorem godash_access_safety :
    (∃ e, First ([] : List Arg) = Except.error e) ∧
    (∀ (α : Type) (a : α) (l : List α), First (a :: l) = Except.ok a) ∧
    Last ([] : List Arg) = none ∧
    (∀ (α : Type) (a : α) (l : List α), Last (a :: l) ≠ none) := by
  refine ⟨⟨"index out of range", rfl⟩, fun α a l => rfl, rfl, fun α a l => ?_⟩
  simp only [Last, List.length_cons, Nat.add_one_sub_one]
  rw [if_neg (Nat.succ_ne_zero _), List.get?_eq_get (by simp)]
  simp

/-! ## C2 -/

/-- C2: the repeated-flag merge overwrites when the key is new or holds a
plain boolean, and otherwise wraps old and new value into a two-element list;
hence `["--x=1","--x=2","--x=3"]` produces the nested `x = [[1,2],3]`. -/
theorem mergeFlag_repeat_policy :
    (∀ (m : Smap) (k n : String), mapGet m k = none →
        mergeFlag m k n = mapSet m k (coerceArgument n)) ∧
    (∀ (m : Smap) (k n : String) (b : Bool), mapGet m k = some (Arg.bool b) →
        mergeFlag m k n = mapSet m k (coerceArgument n)) ∧
    (∀ (m : Smap) (k n : String) (v : Arg), mapGet m k = some v → (∀ b, v ≠ Arg.bool b) →
        mergeFlag m k n = mapSet m k (Arg.list [v, coerceArgument n])) ∧
    mapGet (Parse ["--x=1", "--x=2", "--x=3"]) "x" =
      some (Arg.list [Arg.list [Arg.float 1, Arg.float 2], Arg.float 3]) := by
  refine ⟨fun m k n h => by simp [mergeFlag, h],
    fun m k n b h => by simp [mergeFlag, h],
    fun m k n v h hb => ?_, by decide⟩
  cases v with
  | bool b => exact absurd rfl (hb b)
  | float q => simp [mergeFlag, h]
  | uint n' => simp [mergeFlag, h]
  | str t => simp [mergeFlag, h]
  | list l => simp [mergeFlag, h]

/-- Witness for C2: the three merge branches at concrete inputs. -/
theorem mergeFlag_repeat_policy_witness :
    mergeFlag [] "x" "2" = mapSet [] "x" (coerceArgument "2") ∧
    mergeFlag [("x", Arg.bool true)] "x" "2" =
      mapSet [("x", Arg.bool true)] "x" (coerceArgument "2") ∧
    mergeFlag [("x", Arg.float 1)] "x" "2" =
      mapSet [("x", Arg.float 1)] "x" (Arg.list [Arg.float 1, coerceArgument "2"]) :=
  ⟨mergeFlag_repeat_policy.1 [] "x" "2" (by decide),
   mergeFlag_repeat_policy.2.1 [("x", Arg.bool true)] "x" "2" true (by decide),
   mergeFlag_repeat_policy.2.2.1 [("x", Arg.float 1)] "x" "2" (Arg.float 1) (by decide)
     (fun b hb => Arg.noConfusion hb)⟩

/-! ## C4: escape mode -/

theorem sanitizeStep_marker (st : SanState) :
    sanitizeStep st "--" = { st with escaped := true } := rfl

theorem sanitizeStep_marker_of_trim (st : SanState) (v : String)
    (hv : trimSpaces v = "--") : sanitizeStep st v = { st with escaped := true } := by
  simp [sanitizeStep, hv]

theorem sanitizeStep_escaped (st : SanState) (v : String) (he : st.escaped = true)
    (hv : trimSpaces v ≠ "--") :
    sanitizeStep st v =
      { st with escapedArgs := st.escapedArgs ++ [coerceArgument (trimSpaces v)] } := by
  simp [sanitizeStep, hv, he]

theorem foldl_sanitizeStep_escaped (args : List String) (st : SanState)
    (he : st.escaped = true) :
    args.foldl sanitizeStep st = { st with escapedArgs := st.escapedArgs ++ escapedOf args } := by
  induction args generalizing st with
  | nil => simp [escapedOf]
  | cons v t ih =>
    rw [List.foldl_cons]
    by_cases hv : trimSpaces v = "--"
    · rw [sanitizeStep_marker_of_trim st v hv]
      have hst : ({ st with escaped := true } : SanState) = st := by
        obtain ⟨e, ea, sa, pa⟩ := st
        simp at he
        rw [he]
      rw [hst, ih st he]
      simp [escapedOf, hv]
    · rw [sanitizeStep_escaped st v he hv, ih _ (by simp [he])]
      simp [escapedOf, hv]

/-- C4 (amended): once a token trimming to exactly `--` is seen, escape mode
covers all remaining input: the `--` itself is not emitted, the normalized
token list and the option map stop growing, and every subsequent token except
those that also trim to exactly `--` (which are likewise skipped, not
appended) is coerced, trimmed, and appended to the escaped-value list; e.g.
`parse(["a","--","b","--c"])` yields `_ = ["a","b","--c"]`. -/
theorem escape_mode_amended :
    (∀ args1 args2 : List String,
      sanitize (args1 ++ "--" :: args2) =
        { escaped := true,
          escapedArgs := (sanitize args1).escapedArgs ++ escapedOf args2,
          sanitized := (sanitize args1).sanitized,
          parsed := (sanitize args1).parsed }) ∧
    mapGet (Parse ["a", "--", "b", "--c"]) "_" =
      some (Arg.list [Arg.str "a", Arg.str "b", Arg.str "--c"]) := by
  refine ⟨fun args1 args2 => ?_, by decide⟩
  unfold sanitize
  rw [List.foldl_append, List.foldl_cons, sanitizeStep_marker,
    foldl_sanitizeStep_escaped args2 _ rfl]

/-- Counterexample for C4 as stated: the claim says every token after the
first `--` — including any later `--` token — is coerced and appended to the
escaped-value list, which would make `parse(["--","--"])` yield
`_ = ["--"]`; the code skips every token that trims to `--`, so the
escaped-value list stays empty and `_ = []`. -/
theorem escape_skips_later_marker_cex :
    Parse ["--", "--"] = [("_", Arg.list [])] ∧
    (sanitize ["--", "--"]).escapedArgs = [] := by decide

/-! ## C5: flag token splitting -/

theorem replaceFirstL_eq_marker (v : List Char) :
    ∀ A : List Char, (∀ x ∈ A, x ≠ '=') →
      replaceFirstL ['='] [' '] (A ++ '=' :: v) = A ++ ' ' :: v := by
  intro A
  induction A with
  | nil => intro _; simp [replaceFirstL, List.isPrefixOf]
  | cons c A' ih =>
    intro h
    have hc : ('=' == c) = false := by
      simp only [beq_eq_false_iff_ne]
      exact fun he => h c (List.mem_cons_self c A') he.symm
    simp only [List.cons_append, replaceFirstL, List.isPrefixOf, hc, Bool.false_and,
      Bool.false_eq_true, if_false, List.append_eq]
    rw [ih (fun x hx => h x (List.mem_cons_of_mem c hx))]

theorem replaceFirstL_no_marker :
    ∀ l : List Char, (∀ x ∈ l, x ≠ '=') → replaceFirstL ['='] [' '] l = l := by
  intro l
  induction l with
  | nil => intro _; rfl
  | cons c t ih =>
    intro h
    have hc : ('=' == c) = false := by
      simp only [beq_eq_false_iff_ne]
      exact fun he => h c (List.mem_cons_self c t) he.symm
    simp only [replaceFirstL, List.isPrefixOf, hc, Bool.false_and, Bool.false_eq_true, if_false]
    rw [ih (fun x hx => h x (List.mem_cons_of_mem c hx))]

theorem splitOnCharAux_no_sep :
    ∀ (l acc : List Char), (∀ c ∈ l, c ≠ ' ') →
      splitOnCharAux ' ' l acc = [acc.reverse ++ l] := by
  intro l
  induction l with
  | nil => intro acc _; simp [splitOnCharAux]
  | cons c t ih =>
    intro acc h
    have hc : (c == ' ') = false := by
      simp only [beq_eq_false_iff_ne]
      exact h c (List.mem_cons_self c t)
    simp only [splitOnCharAux, hc, Bool.false_eq_true, if_false]
    rw [ih (c :: acc) (fun x hx => h x (List.mem_cons_of_mem c hx))]
    simp

theorem splitOnCharAux_sep (B : List Char) :
    ∀ (A acc : List Char), (∀ c ∈ A, c ≠ ' ') →
      splitOnCharAux ' ' (A ++ ' ' :: B) acc =
        (acc.reverse ++ A) :: splitOnCharAux ' ' B [] := by
  intro A
  induction A with
  | nil => intro acc _; simp [splitOnCharAux]
  | cons c A' ih =>
    intro acc h
    have hc : (c == ' ') = false := by
      simp only [beq_eq_false_iff_ne]
      exact h c (List.mem_cons_self c A')
    simp only [List.cons_append, splitOnCharAux, hc, Bool.false_eq_true, if_false,
      List.append_eq]
    rw [ih (c :: acc) (fun x hx => h x (List.mem_cons_of_mem c hx))]
    simp

/-- C5 (amended): the tokenizer handles a `--`-prefixed token by replacing its
first `=` with a space and splitting on every space character.  For a token
without interior spaces this gives exactly the two normalized tokens key and
value (the parts before and after the first `=`), or the token unchanged when
it has no `=`; a token with interior spaces splits further. -/
theorem flag_split_amended :
    (∀ (t : String) (k v : List Char), strStartsWith t "--" = true →
        (∀ c ∈ t.data, c ≠ ' ') → t.data = k ++ '=' :: v → (∀ c ∈ k, c ≠ '=') →
        expandFlagToken t = [String.mk k, String.mk v]) ∧
    (∀ t : String, strStartsWith t "--" = true →
        (∀ c ∈ t.data, c ≠ ' ') → (∀ c ∈ t.data, c ≠ '=') →
        expandFlagToken t = [t]) := by
  constructor
  · intro t k v _ hsp ht hk
    have hks : ∀ c ∈ k, c ≠ ' ' := fun c hc => hsp c (ht ▸ List.mem_append_left _ hc)
    have hvs : ∀ c ∈ v, c ≠ ' ' :=
      fun c hc => hsp c (ht ▸ List.mem_append_right _ (List.mem_cons_of_mem '=' hc))
    unfold expandFlagToken replaceFirst goSplitSpace splitOnCharL
    rw [show ("=" : String).data = ['='] from rfl, show (" " : String).data = [' '] from rfl,
      ht, replaceFirstL_eq_marker v k hk,
      show (String.mk (k ++ ' ' :: v)).data = k ++ ' ' :: v from rfl,
      splitOnCharAux_sep v k [] hks, splitOnCharAux_no_sep v [] hvs]
    simp
  · intro t _ hsp hk
    obtain ⟨tl⟩ := t
    unfold expandFlagToken replaceFirst goSplitSpace splitOnCharL
    rw [show ("=" : String).data = ['='] from rfl, show (" " : String).data = [' '] from rfl,
      show (String.mk tl).data = tl from rfl, replaceFirstL_no_marker tl hk,
      show (String.mk tl).data = tl from rfl, splitOnCharAux_no_sep tl [] hsp]
    simp

/-- Counterexample for C5 as stated: the claim says every `--` token with an
`=` splits into exactly two normalized tokens; the token `--k=a b` (interior
space) splits into three. -/
theorem flag_split_interior_space_cex :
    expandFlagToken "--k=a b" = ["--k", "a", "b"] ∧
    (expandFlagToken "--k=a b").length ≠ 2 ∧
    (sanitize ["--k=a b"]).sanitized = ["--k", "a", "b"] := by decide

/-- Witness for C5 amended: a space-free `--key=value` splits into the two
tokens, and a space-free `--flag` stays whole. -/
theorem flag_split_amended_witness :
    expandFlagToken "--key=value" = [String.mk "--key".data, String.mk "value".data] ∧
    expandFlagToken "--flag" = ["--flag"] :=
  ⟨flag_split_amended.1 "--key=value" "--key".data "value".data (by decide) (by decide)
      (by decide) (by decide),
   flag_split_amended.2 "--flag" (by decide) (by decide) (by decide)⟩

/-! ## C9: whitespace handling -/

theorem dropTrailing_cons (c : Char) (t : List Char) (hc : c ≠ ' ') :
    dropTrailing (c :: t) = c :: dropTrailing t := by
  have hcb : (c == ' ') = false := by simp [beq_eq_false_iff_ne, hc]
  cases h : dropTrailing t with
  | nil => simp [dropTrailing, h, hcb]
  | cons x xs => simp [dropTrailing, h]

theorem trimSpaces_head (c : Char) (t : List Char) (hc : c ≠ ' ') :
    (trimSpaces (String.mk (c :: t))).data = c :: dropTrailing t := by
  unfold trimSpaces dropLeading
  rw [show (String.mk (c :: t)).data = c :: t from rfl, List.dropWhile_cons]
  simp [hc, dropTrailing_cons c t hc]

theorem strStartsWith_dash_intro (s : String) (r : List Char) (h : s.data = '-' :: r) :
    strStartsWith s "-" = true := by
  simp [strStartsWith, h, List.isPrefixOf]

theorem strStartsWith_ddash_elim (s : String) (h : strStartsWith s "--" = true) :
    ∃ r, s.data = '-' :: '-' :: r := by
  obtain ⟨l⟩ := s
  cases l with
  | nil => exact absurd h (by decide)
  | cons c t =>
    cases t with
    | nil => exact absurd h (by simp [strStartsWith, List.isPrefixOf])
    | cons c2 t2 =>
      simp [strStartsWith, List.isPrefixOf] at h
      obtain ⟨h1, h2⟩ := h
      subst h1
      subst h2
      exact ⟨t2, rfl⟩

theorem strStartsWith_of_ddash (s : String) (h : strStartsWith s "--" = true) :
    strStartsWith s "-" = true := by
  obtain ⟨r, hr⟩ := strStartsWith_ddash_elim s h
  exact strStartsWith_dash_intro s ('-' :: r) hr

theorem sanitizeStep_plain (st : SanState) (v : String) (he : st.escaped = false)
    (h1 : trimSpaces v ≠ "--") (h2 : strStartsWith (trimSpaces v) "-" = false) :
    sanitizeStep st v = { st with sanitized := st.sanitized ++ [v] } := by
  have h3 : strStartsWith (trimSpaces v) "--" = false := by
    cases h3 : strStartsWith (trimSpaces v) "--"
    · rfl
    · rw [strStartsWith_of_ddash _ h3] at h2
      cases h2
  simp [sanitizeStep, h1, he, h2, h3]

theorem not_raw_ddash (v : String) (h2 : strStartsWith (trimSpaces v) "-" = false) :
    strStartsWith v "--" = false := by
  cases hvd : strStartsWith v "--"
  · rfl
  · obtain ⟨r, hr⟩ := strStartsWith_ddash_elim v hvd
    have hh : (trimSpaces v).data = '-' :: dropTrailing ('-' :: r) := by
      obtain ⟨vl⟩ := v
      have hv : vl = '-' :: '-' :: r := hr
      rw [hv]
      exact trimSpaces_head '-' ('-' :: r) (by decide)
    rw [strStartsWith_dash_intro (trimSpaces v) _ hh] at h2
    cases h2

/-- C9 (amended): every token's classification (escape marker, flag, option,
positional) is made on the token trimmed of surrounding space characters, and
escaped values are coerced from the trimmed token; but a plain positional
token is emitted and coerced untrimmed, so positional values under `_` retain
the original surrounding whitespace — and only the space character is in the
trim cutset, not all whitespace. -/
theorem trim_behavior_amended :
    (∀ v : String, trimSpaces v ≠ "--" → strStartsWith (trimSpaces v) "-" = false →
        Parse [v] = [("_", Arg.list [coerceArgument v])]) ∧
    (∀ v : String, trimSpaces v ≠ "--" →
        Parse ["--", v] = [("_", Arg.list [coerceArgument (trimSpaces v)])]) := by
  constructor
  · intro v h1 h2
    have hs : sanitize [v] = ⟨false, [], [v], [("_", Arg.list [])]⟩ := by
      unfold sanitize
      rw [List.foldl_cons, List.foldl_nil, sanitizeStep_plain _ v rfl h1 h2]
      rfl
    have hv : strStartsWith v "--" = false := not_raw_ddash v h2
    simp only [Parse, hs]
    simp [assemble, assembleAux, hv, mapSet]
  · intro v h1
    have hs : sanitize ["--", v] =
        ⟨true, [coerceArgument (trimSpaces v)], [], [("_", Arg.list [])]⟩ := by
      unfold sanitize
      rw [List.foldl_cons, sanitizeStep_marker, List.foldl_cons, List.foldl_nil,
        sanitizeStep_escaped _ v rfl h1]
      simp
    simp only [Parse, hs]
    simp [assemble, assembleAux, mapSet]

/-- Counterexample for C9 as stated: the claim says the parsed output is
identical whether or not a token carries surrounding whitespace and that
positional values carry none; but `parse([" a"])` stores the untrimmed
`" a"` (differing from `parse(["a"])`), and a tab is not in the trim cutset,
so `parse(["\t--"])` stores the positional `"\t--"` instead of entering
escape mode. -/
theorem positional_keeps_spaces_cex :
    Parse [" a"] = [("_", Arg.list [Arg.str " a"])] ∧
    Parse ["a"] = [("_", Arg.list [Arg.str "a"])] ∧
    Parse [" a"] ≠ Parse ["a"] ∧
    Parse ["\t--"] = [("_", Arg.list [Arg.str "\t--"])] := by decide

/-- Witness for C9 amended: the positional `" a"` is stored untrimmed, and an
escaped `" b "` is stored trimmed. -/
theorem trim_behavior_amended_witness :
    Parse [" a"] = [("_", Arg.list [coerceArgument " a"])] ∧
    Parse ["--", " b "] = [("_", Arg.list [coerceArgument (trimSpaces " b ")])] :=
  ⟨trim_behavior_amended.1 " a" (by decide) (by decide),
   trim_behavior_amended.2 " b " (by decide)⟩

/-! ## C1: the coercer's priority order -/

/-- C1: the value coercer is a total deterministic function (a Lean function
by construction) trying float first, then — only for strings with literal
prefix `0x` — 32-bit hex, then boolean, else the original string unchanged;
concretely `"0x1A"` coerces to the unsigned integer 26, `"true"` to the
boolean `true`, and `"3.14"` to the float 3.14 (= 157/50 exactly). -/
theorem coerceArgument_priority_spec :
    (∀ (s : String) (f : ℚ), parseGoFloat s = some f → coerceArgument s = Arg.float f) ∧
    (∀ (s : String) (n : ℕ), parseGoFloat s = none → strStartsWith s "0x" = true →
        parseHexUint32 (replaceFirst s "0x" "") = some n → coerceArgument s = Arg.uint n) ∧
    (∀ (s : String) (b : Bool), parseGoFloat s = none →
        (if strStartsWith s "0x" then parseHexUint32 (replaceFirst s "0x" "") else none) = none →
        parseBool s = some b → coerceArgument s = Arg.bool b) ∧
    (∀ s : String, parseGoFloat s = none →
        (if strStartsWith s "0x" then parseHexUint32 (replaceFirst s "0x" "") else none) = none →
        parseBool s = none → coerceArgument s = Arg.str s) ∧
    coerceArgument "0x1A" = Arg.uint 26 ∧
    coerceArgument "true" = Arg.bool true ∧
    coerceArgument "3.14" = Arg.float (157 / 50) := by
  refine ⟨fun s f h1 => by simp [coerceArgument, h1],
    fun s n h1 h2 h3 => by simp [coerceArgument, h1, h2, h3],
    fun s b h1 h2 h3 => by simp [coerceArgument, h1, h2, h3],
    fun s h1 h2 h3 => by simp [coerceArgument, h1, h2, h3],
    by decide, by decide, ?_⟩
  have h : coerceArgument "3.14" =
      Arg.float ((digitsToNat ['3'] : ℚ) + (digitsToNat ['1', '4'] : ℚ) / 10 ^ 2) := rfl
  rw [h, show digitsToNat ['3'] = 3 from rfl, show digitsToNat ['1', '4'] = 14 from rfl]
  norm_num

/-- Witness for C1: each priority branch exercised at a concrete input
(`"26"` float, `"0x1A"` hex, `"f"` boolean, `"abc"` string fallthrough). -/
theorem coerceArgument_priority_spec_witness :
    coerceArgument "26" = Arg.float 26 ∧
    coerceArgument "0x1A" = Arg.uint 26 ∧
    coerceArgument "f" = Arg.bool false ∧
    coerceArgument "abc" = Arg.str "abc" :=
  ⟨coerceArgument_priority_spec.1 "26" 26 (by decide),
   coerceArgument_priority_spec.2.1 "0x1A" 26 (by decide) (by decide) (by decide),
   coerceArgument_priority_spec.2.2.1 "f" false (by decide) (by decide) (by decide),
   coerceArgument_priority_spec.2.2.2.1 "abc" (by decide) (by decide) (by decide)⟩

/-! ## C6: digit strings -/

theorem digitsToNat_append_digit (l : List Char) (c : Char) :
    digitsToNat (l ++ [c]) = 10 * digitsToNat l + (c.toNat - 48) := by
  unfold digitsToNat
  rw [List.foldl_append, List.foldl_cons, List.foldl_nil]

theorem digitChar10_val (d : ℕ) (hd : d < 10) : (digitChar10 d).toNat - 48 = d := by
  interval_cases d <;> decide

theorem digitChar10_isDigit (d : ℕ) (hd : d < 10) : isDigitChar (digitChar10 d) = true := by
  interval_cases d <;> decide

theorem natDigitsAux_step (fuel n : ℕ) (h0 : n ≠ 0) :
    natDigitsAux (fuel + 1) n = natDigitsAux fuel (n / 10) ++ [digitChar10 (n % 10)] := by
  simp [natDigitsAux, h0]

theorem natDigitsAux_val : ∀ fuel n : ℕ, n ≤ fuel →
    digitsToNat (natDigitsAux fuel n) = n := by
  intro fuel
  induction fuel with
  | zero =>
    intro n hn
    interval_cases n
    rfl
  | succ f ih =>
    intro n hn
    by_cases h0 : n = 0
    · subst h0; rfl
    · rw [natDigitsAux_step f n h0, digitsToNat_append_digit,
        ih (n / 10) (by omega), digitChar10_val _ (Nat.mod_lt n (by omega))]
      omega

theorem natDigitsAux_all : ∀ fuel n : ℕ, allDigits (natDigitsAux fuel n) = true := by
  intro fuel
  induction fuel with
  | zero => intro n; rfl
  | succ f ih =>
    intro n
    by_cases h0 : n = 0
    · subst h0; rfl
    · rw [natDigitsAux_step f n h0, allDigits, List.all_append]
      have h1 := ih (n / 10)
      rw [allDigits] at h1
      simp [h1, digitChar10_isDigit _ (Nat.mod_lt n (by omega))]

theorem natDigits_val (n : ℕ) : digitsToNat (natDigits n) = n := by
  by_cases h0 : n = 0
  · subst h0; rfl
  · rw [natDigits, if_neg h0]
    exact natDigitsAux_val n n le_rfl

theorem natDigits_all (n : ℕ) : allDigits (natDigits n) = true := by
  by_cases h0 : n = 0
  · subst h0; rfl
  · rw [natDigits, if_neg h0]
    exact natDigitsAux_all n n

theorem natDigits_ne_nil (n : ℕ) : natDigits n ≠ [] := by
  by_cases h0 : n = 0
  · subst h0; simp [natDigits]
  · rw [natDigits, if_neg h0]
    obtain ⟨f, rfl⟩ : ∃ f, n = f + 1 := ⟨n - 1, by omega⟩
    rw [natDigitsAux_step f (f + 1) h0]
    simp

theorem digit_not_special (c : Char) (h : isDigitChar c = true) :
    (c == '+') = false ∧ (c == '-') = false ∧ isExpChar c = false ∧ (c == '.') = false := by
  refine ⟨?_, ?_, ?_, ?_⟩
  · cases hx : c == '+'
    · rfl
    · obtain rfl := eq_of_beq hx
      exact absurd h (by decide)
  · cases hx : c == '-'
    · rfl
    · obtain rfl := eq_of_beq hx
      exact absurd h (by decide)
  · cases hx : isExpChar c
    · rfl
    · rw [isExpChar, Bool.or_eq_true] at hx
      rcases hx with hx | hx <;> obtain rfl := eq_of_beq hx <;> exact absurd h (by decide)
  · cases hx : c == '.'
    · rfl
    · obtain rfl := eq_of_beq hx
      exact absurd h (by decide)

/-! ## C6: the float grammar on constructed strings -/

theorem splitOnFirstP_none (p : Char → Bool) :
    ∀ l : List Char, (∀ c ∈ l, p c = false) → splitOnFirstP p l = (l, none) := by
  intro l
  induction l with
  | nil => intro _; rfl
  | cons c t ih =>
    intro h
    have hc := h c (List.mem_cons_self c t)
    simp [splitOnFirstP, hc, ih (fun x hx => h x (List.mem_cons_of_mem c hx))]

theorem splitOnFirstP_found (p : Char → Bool) (x : Char) (B : List Char) (hx : p x = true) :
    ∀ A : List Char, (∀ c ∈ A, p c = false) →
      splitOnFirstP p (A ++ x :: B) = (A, some B) := by
  intro A
  induction A with
  | nil => intro _; simp [splitOnFirstP, hx]
  | cons c t ih =>
    intro h
    have hc := h c (List.mem_cons_self c t)
    simp [splitOnFirstP, hc, ih (fun y hy => h y (List.mem_cons_of_mem c hy))]

theorem parseMantissa_digits (l : List Char) (hne : l ≠ []) (hd : allDigits l = true) :
    parseMantissa l = some ((digitsToNat l : ℚ)) := by
  have hnd : ∀ c ∈ l, (c == '.') = false := by
    intro c hc
    exact (digit_not_special c (List.all_eq_true.mp hd c hc)).2.2.2
  obtain ⟨c, t, rfl⟩ := List.exists_cons_of_ne_nil hne
  unfold parseMantissa
  rw [splitOnFirstP_none _ (c :: t) hnd]
  simp [hd]

theorem parseExpPart_neg_digits (t : List Char) (hne : t ≠ []) (hd : allDigits t = true) :
    parseExpPart ('-' :: t) = some (-(digitsToNat t : ℤ)) := by
  obtain ⟨c, t', rfl⟩ := List.exists_cons_of_ne_nil hne
  simp [parseExpPart, hd, show (('-' : Char) == '+') = false from by decide,
    show (('-' : Char) == '-') = true from by decide]

theorem parseUnsignedFloat_sci (M k : ℕ) :
    parseUnsignedFloat (natDigits M ++ 'e' :: '-' :: natDigits k) =
      some ((M : ℚ) * (10 : ℚ) ^ (-(k : ℤ))) := by
  have hA : ∀ c ∈ natDigits M, isExpChar c = false := by
    intro c hc
    exact (digit_not_special c (List.all_eq_true.mp (natDigits_all M) c hc)).2.2.1
  unfold parseUnsignedFloat
  rw [splitOnFirstP_found isExpChar 'e' ('-' :: natDigits k) (by decide) (natDigits M) hA]
  simp only [parseMantissa_digits (natDigits M) (natDigits_ne_nil M) (natDigits_all M),
    parseExpPart_neg_digits (natDigits k) (natDigits_ne_nil k) (natDigits_all k),
    natDigits_val]

theorem parseGoFloat_mk_digits (n : ℕ) :
    parseGoFloat (String.mk (natDigits n)) = some ((n : ℚ)) := by
  obtain ⟨d, ds, hd⟩ := List.exists_cons_of_ne_nil (natDigits_ne_nil n)
  have hdig : isDigitChar d = true := by
    have hall := natDigits_all n
    rw [hd] at hall
    exact List.all_eq_true.mp hall d (List.mem_cons_self d ds)
  have hns := digit_not_special d hdig
  have hexp : ∀ c ∈ natDigits n, isExpChar c = false := by
    intro c hc
    exact (digit_not_special c (List.all_eq_true.mp (natDigits_all n) c hc)).2.2.1
  unfold parseGoFloat
  rw [show (String.mk (natDigits n)).data = natDigits n from rfl, hd]
  simp only [hns.1, hns.2.1, Bool.false_eq_true, if_false]
  rw [← hd]
  unfold parseUnsignedFloat
  rw [splitOnFirstP_none isExpChar (natDigits n) hexp]
  simp only [parseMantissa_digits (natDigits n) (natDigits_ne_nil n) (natDigits_all n),
    natDigits_val]

/-! ## C6: every parsed float is a decimal rational -/

theorem parseMantissa_decimal {l : List Char} {m : ℚ} (h : parseMantissa l = some m) :
    ∃ (a k : ℕ), m = (a : ℚ) / 10 ^ k := by
  unfold parseMantissa at h
  split at h
  · rename_i intp heq
    split_ifs at h with hcond
    refine ⟨digitsToNat intp, 0, ?_⟩
    rw [← Option.some.inj h]
    simp
  · rename_i intp frac heq
    split_ifs at h with hcond
    refine ⟨digitsToNat intp * 10 ^ frac.length + digitsToNat frac, frac.length, ?_⟩
    rw [← Option.some.inj h]
    have hten : (10 : ℚ) ^ frac.length ≠ 0 := pow_ne_zero _ (by norm_num)
    field_simp

theorem parseUnsignedFloat_decimal {l : List Char} {m : ℚ}
    (h : parseUnsignedFloat l = some m) : ∃ (a k : ℕ), m = (a : ℚ) / 10 ^ k := by
  unfold parseUnsignedFloat at h
  split at h
  · exact parseMantissa_decimal h
  · split at h
    · rename_i m' e hm he
      obtain ⟨a, k, rfl⟩ := parseMantissa_decimal hm
      rw [← Option.some.inj h]
      cases e with
      | ofNat nn =>
        refine ⟨a * 10 ^ nn, k, ?_⟩
        rw [show (Int.ofNat nn) = (nn : ℤ) from rfl, zpow_natCast]
        push_cast
        ring
      | negSucc nn =>
        refine ⟨a, k + (nn + 1), ?_⟩
        rw [zpow_negSucc, pow_add]
        have h1 : (10 : ℚ) ^ k ≠ 0 := pow_ne_zero _ (by norm_num)
        have h2 : (10 : ℚ) ^ (nn + 1) ≠ 0 := pow_ne_zero _ (by norm_num)
        field_simp
        left
        ring
    · exact absurd h (by simp)

theorem parseGoFloat_decimal {s : String} {q : ℚ} (h : parseGoFloat s = some q) :
    ∃ (z : ℤ) (k : ℕ), q = (z : ℚ) / 10 ^ k := by
  unfold parseGoFloat at h
  split at h
  · exact absurd h (by simp)
  · split_ifs at h with h1 h2
    · obtain ⟨a, k, rfl⟩ := parseUnsignedFloat_decimal h
      exact ⟨a, k, by push_cast; ring⟩
    · rw [Option.map_eq_some'] at h
      obtain ⟨m, hm, rfl⟩ := h
      obtain ⟨a, k, rfl⟩ := parseUnsignedFloat_decimal hm
      exact ⟨-(a : ℤ), k, by push_cast; ring⟩
    · obtain ⟨a, k, rfl⟩ := parseUnsignedFloat_decimal h
      exact ⟨a, k, by push_cast; ring⟩

theorem den_dvd_of_decimal (q : ℚ) (z : ℤ) (k : ℕ) (h : q = (z : ℚ) / 10 ^ k) :
    (q.den : ℕ) ∣ 10 ^ k := by
  have hdi : q = Rat.divInt z (10 ^ k) := by
    rw [Rat.divInt_eq_div, h]
    push_cast
    ring
  have hd := Rat.den_dvd z (10 ^ k)
  rw [← hdi] at hd
  exact_mod_cast hd

theorem dvd_ten_pow_self : ∀ d j : ℕ, d ∣ 10 ^ j → d ∣ 10 ^ d := by
  intro d
  induction d using Nat.strong_induction_on with
  | _ d ih =>
    intro j hdvd
    rcases Nat.lt_or_ge d 2 with hd2 | hd2
    · interval_cases d
      · exact absurd (Nat.eq_zero_of_zero_dvd hdvd) (by positivity)
      · exact one_dvd _
    · have hd1 : d ≠ 1 := by omega
      have hp : d.minFac.Prime := Nat.minFac_prime hd1
      have hpd : d.minFac ∣ d := Nat.minFac_dvd d
      have hp10 : d.minFac ∣ 10 := hp.dvd_of_dvd_pow (hpd.trans hdvd)
      set e := d / d.minFac with he
      have hed : d = d.minFac * e := (Nat.mul_div_cancel' hpd).symm
      have helt : e < d := Nat.div_lt_self (by omega) hp.one_lt
      have hee : e ∣ 10 ^ j := dvd_trans ⟨d.minFac, by rw [mul_comm]; exact hed⟩ hdvd
      have he10 : e ∣ 10 ^ e := ih e helt j hee
      have hstep : d ∣ 10 ^ (e + 1) := by
        rw [pow_succ', hed]
        exact Nat.mul_dvd_mul hp10 he10
      exact hstep.trans (pow_dvd_pow 10 (by omega))

/-! ## C6: the format/parse round trip -/

theorem parseGoFloat_formatGoFloat (q : ℚ) (h : (q.den : ℕ) ∣ 10 ^ q.den) :
    parseGoFloat (formatGoFloat q) = some q := by
  have hden0 : (q.den : ℚ) ≠ 0 :=
    Nat.cast_ne_zero.mpr (Nat.pos_iff_ne_zero.mp q.den_pos)
  have hpow10 : (10 : ℚ) ^ q.den ≠ 0 := pow_ne_zero _ (by norm_num)
  have hc : (10 ^ q.den / q.den) * q.den = 10 ^ q.den := Nat.div_mul_cancel h
  have hcQ : ((10 ^ q.den / q.den : ℕ) : ℚ) * (q.den : ℚ) = (10 : ℚ) ^ q.den := by
    exact_mod_cast hc
  have hM : ((q.num.natAbs * (10 ^ q.den / q.den) : ℕ) : ℚ) * (10 : ℚ) ^ (-(q.den : ℤ)) =
      (q.num.natAbs : ℚ) / (q.den : ℚ) := by
    rw [zpow_neg, zpow_natCast]
    push_cast
    rw [eq_div_iff hden0]
    have hre : (q.num.natAbs : ℚ) * ((10 ^ q.den / q.den : ℕ) : ℚ) * ((10 : ℚ) ^ q.den)⁻¹ *
        (q.den : ℚ) =
        (q.num.natAbs : ℚ) * (((10 ^ q.den / q.den : ℕ) : ℚ) * (q.den : ℚ)) *
          ((10 : ℚ) ^ q.den)⁻¹ := by ring
    rw [hre, hcQ, mul_assoc, mul_inv_cancel₀ hpow10, mul_one]
  rcases lt_or_le q.num 0 with hneg | hpos
  · have hdata : (formatGoFloat q).data =
        '-' :: (natDigits (q.num.natAbs * (10 ^ q.den / q.den)) ++
          'e' :: '-' :: natDigits q.den) := by
      unfold formatGoFloat
      rw [if_pos hneg]
      rfl
    unfold parseGoFloat
    rw [hdata]
    simp only [show (('-' : Char) == '+') = false from by decide,
      show (('-' : Char) == '-') = true from by decide, Bool.false_eq_true, if_false, if_true]
    rw [parseUnsignedFloat_sci]
    simp only [Option.map_some']
    congr 1
    rw [hM]
    have hna : (q.num.natAbs : ℚ) = -(q.num : ℚ) := by
      rw [Nat.cast_natAbs]
      exact_mod_cast abs_of_neg hneg
    rw [hna, neg_div, neg_neg, Rat.num_div_den]
  · have hdata : (formatGoFloat q).data =
        natDigits (q.num.natAbs * (10 ^ q.den / q.den)) ++ 'e' :: '-' :: natDigits q.den := by
      unfold formatGoFloat
      rw [if_neg (not_lt.mpr hpos)]
      rfl
    obtain ⟨d, ds, hd⟩ :=
      List.exists_cons_of_ne_nil (natDigits_ne_nil (q.num.natAbs * (10 ^ q.den / q.den)))
    have hdig : isDigitChar d = true := by
      have hall := natDigits_all (q.num.natAbs * (10 ^ q.den / q.den))
      rw [hd] at hall
      exact List.all_eq_true.mp hall d (List.mem_cons_self d ds)
    have hns := digit_not_special d hdig
    unfold parseGoFloat
    rw [hdata, hd, List.cons_append]
    simp only [hns.1, hns.2.1, Bool.false_eq_true, if_false]
    rw [← List.cons_append, ← hd, parseUnsignedFloat_sci]
    congr 1
    rw [hM]
    have hna : (q.num.natAbs : ℚ) = (q.num : ℚ) := by
      rw [Nat.cast_natAbs]
      exact_mod_cast abs_of_nonneg hpos
    rw [hna, Rat.num_div_den]

/-! ## C6: inversion of the coercer -/

theorem coerce_float_inv {s : String} {q : ℚ} (h : coerceArgument s = Arg.float q) :
    parseGoFloat s = some q := by
  unfold coerceArgument at h
  rcases hf : parseGoFloat s with _ | f <;> rw [hf] at h
  · rcases hx : (if strStartsWith s "0x" then parseHexUint32 (replaceFirst s "0x" "") else none)
        with _ | i <;> rw [hx] at h
    · rcases hb : parseBool s with _ | b <;> rw [hb] at h <;> simp at h
    · simp at h
  · simp at h
    rw [h]

theorem coerce_str_inv {s t : String} (h : coerceArgument s = Arg.str t) : t = s := by
  unfold coerceArgument at h
  rcases hf : parseGoFloat s with _ | f <;> rw [hf] at h
  · rcases hx : (if strStartsWith s "0x" then parseHexUint32 (replaceFirst s "0x" "") else none)
        with _ | i <;> rw [hx] at h
    · rcases hb : parseBool s with _ | b <;> rw [hb] at h
      · simp at h
        exact h.symm
      · simp at h
    · simp at h
  · simp at h

theorem coerce_ne_list (s : String) (l : List Arg) : coerceArgument s ≠ Arg.list l := by
  unfold coerceArgument
  rcases parseGoFloat s with _ | f
  · rcases (if strStartsWith s "0x" then parseHexUint32 (replaceFirst s "0x" "") else none)
        with _ | i
    · rcases parseBool s with _ | b <;> simp
    · simp
  · simp

/-! ## C6 -/

/-- C6 (amended): coercion through the Go `%v` string representation is the
identity for the float, boolean and string variants; but for the
hex-unsigned-integer variant the decimal rendering re-coerces as a float of
the same numeric value, a different typed value, so idempotence fails
there. -/
theorem coerce_repr_idem_amended (s : String) :
    (∃ n : ℕ, coerceArgument s = Arg.uint n ∧
      coerceArgument (goRepr (coerceArgument s)) = Arg.float (n : ℚ)) ∨
    coerceArgument (goRepr (coerceArgument s)) = coerceArgument s := by
  rcases hc : coerceArgument s with q | n | b | t | l
  · right
    have hp := coerce_float_inv hc
    obtain ⟨z, k, hq⟩ := parseGoFloat_decimal hp
    have hr := parseGoFloat_formatGoFloat q (dvd_ten_pow_self q.den k (den_dvd_of_decimal q z k hq))
    show coerceArgument (formatGoFloat q) = Arg.float q
    unfold coerceArgument
    rw [hr]
  · left
    refine ⟨n, rfl, ?_⟩
    show coerceArgument (String.mk (natDigits n)) = Arg.float (n : ℚ)
    unfold coerceArgument
    rw [parseGoFloat_mk_digits n]
  · right
    cases b
    · decide
    · decide
  · right
    obtain rfl := coerce_str_inv hc
    exact hc
  · exact absurd hc (coerce_ne_list s l)

/-- Counterexample for C6 as stated: the claim says idempotence holds for all
four variants, the hex-unsigned one included; but `"0x1A"` coerces to the
unsigned integer 26, whose rendering `"26"` re-coerces to the float 26 — a
different typed value. -/
theorem coerce_repr_hex_cex :
    coerceArgument "0x1A" = Arg.uint 26 ∧
    goRepr (Arg.uint 26) = "26" ∧
    coerceArgument (goRepr (coerceArgument "0x1A")) = Arg.float 26 ∧
    coerceArgument (goRepr (coerceArgument "0x1A")) ≠ coerceArgument "0x1A" := by decide
